import Mathlib

/-!
# okechika-decoder: dictionary layers and page substitution

A shallow embedding of `src/extension/panel.js`.

* JavaScript strings are sequences of UTF-16 code units; `for (const ch of s)`
  follows the string iterator, which pairs a leading surrogate with the
  trailing surrogate that follows it and yields every other unit alone.
* A plain object used as a dictionary is the list of its own string-valued
  properties, its prototype being `Object.prototype`.  The operator `in` also
  finds the members inherited from `Object.prototype`, and an assignment to
  the name `__proto__` runs the inherited setter, which stores nothing for a
  string.  The spread of an object literal defines own properties, and
  `delete` removes them.  The list keeps the properties in the order of their
  creation, which is not the order JavaScript lists integer-like names in;
  the statements below speak of reads and of membership, never of positions.
* The module-level variables `defaultDict`, `userDict` and `deletedKeys` form
  an explicit `State`; every event handler is a function on states.
* The page is a tree of text, element and other nodes, an element carrying
  its attributes as a map from qualified names to values; `walk` returns the
  tree it leaves behind.
* Persistence (`chrome.storage`), rendering and the status line are not
  modelled.
-/

namespace Okechika

/-! ## Strings -/

/-- A UTF-16 code unit. -/
abbrev CodeUnit := Fin 65536

/-- A JavaScript string value: a finite sequence of UTF-16 code units. -/
abbrev JSString := List CodeUnit

/-- Leading (high) surrogates, 0xD800 to 0xDBFF. -/
def isLeadingSurrogate (u : CodeUnit) : Bool :=
  decide (0xD800 ≤ u.val) && decide (u.val ≤ 0xDBFF)

/-- Trailing (low) surrogates, 0xDC00 to 0xDFFF. -/
def isTrailingSurrogate (u : CodeUnit) : Bool :=
  decide (0xDC00 ≤ u.val) && decide (u.val ≤ 0xDFFF)

/-- The UTF-16 encoding of one Unicode scalar value. -/
def encodeChar (c : Char) : JSString :=
  if c.toNat < 0x10000 then [Fin.ofNat c.toNat]
  else [Fin.ofNat (0xD800 + (c.toNat - 0x10000) / 0x400),
        Fin.ofNat (0xDC00 + (c.toNat - 0x10000) % 0x400)]

/-- The JavaScript string written by a string literal of well-formed text. -/
def utf16 (s : String) : JSString :=
  s.toList.flatMap encodeChar

/-- The values `for (const ch of s)` binds `ch` to, in order: the string
iterator reads a code point at each position, a surrogate pair when a leading
surrogate is directly followed by a trailing one, a single code unit
otherwise. -/
def codePoints : JSString → List JSString
  | [] => []
  | [u] => [[u]]
  | u :: v :: rest =>
    if isLeadingSurrogate u && isTrailingSurrogate v then [u, v] :: codePoints rest
    else [u] :: codePoints (v :: rest)
termination_by structural s => s

/-- White space and line terminators, the code units `String.prototype.trim`
strips. -/
def isTrimmable (u : CodeUnit) : Bool :=
  [0x0009, 0x000A, 0x000B, 0x000C, 0x000D, 0x0020, 0x00A0, 0x1680, 0x2028, 0x2029,
    0x202F, 0x205F, 0x3000, 0xFEFF].contains u.val
  || (decide (0x2000 ≤ u.val) && decide (u.val ≤ 0x200A))

/-- The method `String.prototype.trim`. -/
def trim (s : JSString) : JSString :=
  ((s.dropWhile isTrimmable).reverse.dropWhile isTrimmable).reverse

/-! ## Objects used as dictionaries -/

/-- A plain object whose property values are strings: its own properties. -/
abbrev JSObject := List (JSString × JSString)

/-- The names of the members every plain object inherits from
`Object.prototype`. -/
def objectPrototypeKeys : List JSString :=
  [utf16 "constructor", utf16 "__defineGetter__", utf16 "__defineSetter__",
    utf16 "hasOwnProperty", utf16 "__lookupGetter__", utf16 "__lookupSetter__",
    utf16 "isPrototypeOf", utf16 "propertyIsEnumerable", utf16 "toString", utf16 "valueOf",
    utf16 "__proto__", utf16 "toLocaleString"]

namespace JSObject

/-- The read of the own property `k` of `o`; `none` stands for `undefined`.
For a key that no member of `Object.prototype` is named by, and so for every
`ch` the string iterator yields, this is the read `o[k]`. -/
def get : JSObject → JSString → Option JSString
  | [], _ => none
  | (k', v) :: o, k => if k' = k then some v else get o k

/-- The name `k` is an own property key of `o`. -/
def has (o : JSObject) (k : JSString) : Bool :=
  (get o k).isSome

/-- The test `k in o`: `k` is an own property key of `o` or the name of a
member inherited from `Object.prototype`. -/
def hasProperty (o : JSObject) (k : JSString) : Bool :=
  has o k || objectPrototypeKeys.contains k

/-- The definition of the own property `k` with value `v`, as the spread of an
object literal does it: an existing property keeps its place, a new one is
added at the end of the list (JavaScript lists integer-like names first;
positions play no part below). -/
def define : JSObject → JSString → JSString → JSObject
  | [], k, v => [(k, v)]
  | (k', v') :: o, k, v => if k' = k then (k, v) :: o else (k', v') :: define o k v

/-- The assignment `o[k] = v` of a string `v`.  An own property is
overwritten.  Otherwise the name `__proto__` reaches the setter inherited from
`Object.prototype`, which ignores a string and stores nothing; every other
name, inherited as a writable data property or not at all, becomes a new own
property. -/
def assign (o : JSObject) (k v : JSString) : JSObject :=
  if k = utf16 "__proto__" ∧ has o k = false then o else define o k v

/-- The statement `delete o[k]`. -/
def delete (o : JSObject) (k : JSString) : JSObject :=
  o.filter (fun p => decide (p.1 ≠ k))

/-- The own property keys of `o`, the keys `Object.keys(o)` lists. -/
def keys (o : JSObject) : List JSString :=
  o.map Prod.fst

/-- The spread `{ ...target, ...source }` onto an object under construction:
for every own key of `source`, in order, the value read from `source` is
defined on `target`. -/
def spread (target source : JSObject) : JSObject :=
  (keys source).foldl
    (fun t k =>
      match get source k with
      | some v => define t k v
      | none => t)
    target

end JSObject

/-! ## The substitution of one text -/

/-- The expression `dict[ch] || ch`: `undefined` and the empty string are
falsy, every other string is truthy. -/
def orElse (lookup : Option JSString) (ch : JSString) : JSString :=
  match lookup with
  | none => ch
  | some v => if v = [] then ch else v

/-- The loop `let out = ''; for (const ch of orig) out += dict[ch] || ch;`
of `walk`, run on a text node's content and on an attribute's value. -/
def substituteText (dict : JSObject) (orig : JSString) : JSString :=
  (codePoints orig).foldl (fun out ch => out ++ orElse (dict.get ch) ch) []

/-! ## The dictionary layers -/

/-- The module-level variables of the panel: the bundled base dictionary, the
user's entries and the list of deleted keys. -/
structure State where
  defaultDict : JSObject
  userDict : JSObject
  deletedKeys : List JSString

/-- The function `getMergedDict`. -/
def getMergedDict (st : State) : JSObject :=
  let merged := JSObject.spread (JSObject.spread [] st.defaultDict) st.userDict
  st.deletedKeys.foldl (fun merged key => merged.delete key) merged

/-- The click handler of `addBtn`, run on the values of the two input
fields. -/
def addBtnClick (st : State) (cipherInput decodedInput : JSString) : State :=
  let cipher := trim cipherInput
  let decoded := trim decodedInput
  if cipher = [] ∨ decoded = [] then st
  else
    { st with
      userDict := st.userDict.assign cipher decoded
      deletedKeys := st.deletedKeys.filter (fun k => decide (k ≠ cipher)) }

/-- The function `save` of the edit handler of the list item of `cipher`, run
on the value of the edit field. -/
def save (st : State) (cipher input : JSString) : State :=
  let val := trim input
  if val ≠ [] then
    { st with
      userDict := st.userDict.assign cipher val
      deletedKeys := st.deletedKeys.filter (fun k => decide (k ≠ cipher)) }
  else st

/-- The click handler of the delete button of the list item of `cipher`. -/
def deleteClick (st : State) (cipher : JSString) : State :=
  let userDict :=
    if st.userDict.hasProperty cipher then st.userDict.delete cipher else st.userDict
  let deletedKeys :=
    if st.defaultDict.hasProperty cipher && !st.deletedKeys.contains cipher then
      st.deletedKeys ++ [cipher]
    else st.deletedKeys
  { st with userDict := userDict, deletedKeys := deletedKeys }

/-- A value produced by `JSON.parse`.  The import looks at the type of a value
only, so integers stand for the numbers. -/
inductive JSValue where
  | null
  | boolean (b : Bool)
  | number (n : Int)
  | string (s : JSString)
  | array (items : List JSValue)
  | object (properties : List (JSString × JSValue))

/-- One turn of the import loop on the entry `[k, v]`.  The test
`typeof k === 'string'` holds of every key `Object.entries` lists, and
`typeof v === 'string'` holds exactly of the string values. -/
def importStep (acc : JSObject × Nat) (entry : JSString × JSValue) : JSObject × Nat :=
  match entry.2 with
  | .string v => (acc.1.assign entry.1 v, acc.2 + 1)
  | _ => acc

/-- The change handler of `importFile` after `JSON.parse`, run on
`Object.entries(imported)`: the state it leaves and the count it reports. -/
def importFileChange (st : State) (entries : List (JSString × JSValue)) : State × Nat :=
  let r := entries.foldl importStep (st.userDict, 0)
  ({ st with userDict := r.1 }, r.2)

/-! ## The page -/

/-- A node of the page: a text node with its content, an element with its
`tagName`, its attributes by qualified name and its child nodes, or a node of
another type (a comment, say). -/
inductive Node where
  | text (textContent : JSString)
  | element (tagName : JSString) (attributes : JSString → Option JSString)
      (childNodes : List Node)
  | other (nodeType : Nat)

/-- The test `/^(SCRIPT|STYLE|NOSCRIPT)$/.test(node.tagName)`. -/
def isExcludedTag (tagName : JSString) : Bool :=
  [utf16 "SCRIPT", utf16 "STYLE", utf16 "NOSCRIPT"].contains tagName

/-- The attribute names `walk` goes through, in order. -/
def substitutedAttributes : List JSString :=
  [utf16 "alt", utf16 "title", utf16 "placeholder"]

/-- One turn of the loop over `['alt', 'title', 'placeholder']`: `hasAttribute`,
`getAttribute`, the substitution, and `setAttribute` when the value changed. -/
def walkAttribute (dict : JSObject) (attributes : JSString → Option JSString)
    (attr : JSString) : JSString → Option JSString :=
  match attributes attr with
  | none => attributes
  | some val =>
    let out := substituteText dict val
    if out ≠ val then Function.update attributes attr (some out) else attributes

mutual
/-- The function `walk` injected into the page, as the node it leaves. -/
def walk (dict : JSObject) : Node → Node
  | .text orig =>
    let out := substituteText dict orig
    if out ≠ orig then .text out else .text orig
  | .element tagName attributes childNodes =>
    if isExcludedTag tagName then .element tagName attributes childNodes
    else
      .element tagName (substitutedAttributes.foldl (walkAttribute dict) attributes)
        (walkChildNodes dict childNodes)
  | .other nodeType => .other nodeType
/-- The loop `for (const child of node.childNodes) walk(child)`. -/
def walkChildNodes (dict : JSObject) : List Node → List Node
  | [] => []
  | child :: rest => walk dict child :: walkChildNodes dict rest
end

/-! ## Definitions used to state the properties -/

/-- The pairs of `Object.entries(imported)` whose value is a string, with that
string: the pairs the import accepts. -/
def acceptedPairs (entries : List (JSString × JSValue)) : List (JSString × JSString) :=
  entries.filterMap fun e =>
    match e.2 with
    | .string v => some (e.1, v)
    | _ => none

/-- A state whose only user entry has a deleted key. -/
def deletedUserKeyState : State :=
  { defaultDict := [], userDict := [(utf16 "a", utf16 "x")], deletedKeys := [utf16 "a"] }

/-- The state with base `{"亜": "a"}`, no user entry and no deleted key. -/
def baseOnlyState : State :=
  { defaultDict := [(utf16 "亜", utf16 "a")], userDict := [], deletedKeys := [] }

/-- The state with empty layers. -/
def emptyState : State :=
  { defaultDict := [], userDict := [], deletedKeys := [] }

/-- A state whose only deleted key is `__proto__`. -/
def protoDeletedState : State :=
  { defaultDict := [], userDict := [], deletedKeys := [utf16 "__proto__"] }

/-- The entries of the object `JSON.parse` makes of `{"__proto__": "x"}`. -/
def protoEntries : List (JSString × JSValue) :=
  [(utf16 "__proto__", .string (utf16 "x"))]

/-- The entries of the object written `{"a":"b","x":1,2:"y"}`, as
`Object.entries` lists them: the property name written `2` is the string
`"2"`, and integer-like names come first. -/
def rawMappingEntries : List (JSString × JSValue) :=
  [(utf16 "2", .string (utf16 "y")), (utf16 "a", .string (utf16 "b")), (utf16 "x", .number 1)]

/-- The substitution as C2 words it: over the code points `u` of `s` in order,
`dict[u]` when `u` is a key of `dict` and `u` itself when it is not. -/
def substituteByKey (dict : JSObject) (s : JSString) : JSString :=
  (codePoints s).flatMap fun u =>
    match dict.get u with
    | some v => v
    | none => u

/-- The last code unit of `s` is a leading surrogate. -/
def endsWithLeadingSurrogate (s : JSString) : Bool :=
  match s.getLast? with
  | some u => isLeadingSurrogate u
  | none => false

/-- The first code unit of `s` is a trailing surrogate. -/
def startsWithTrailingSurrogate (s : JSString) : Bool :=
  match s with
  | u :: _ => isTrailingSurrogate u
  | [] => false

/-- The string `s` is one surrogate code unit, alone. -/
def isLoneSurrogate (s : JSString) : Bool :=
  match s with
  | [u] => isLeadingSurrogate u || isTrailingSurrogate u
  | _ => false

/-- Two strings can be joined without forming a surrogate pair at the seam. -/
def Seam (p q : JSString) : Prop :=
  ¬ (endsWithLeadingSurrogate p = true ∧ startsWithTrailingSurrogate q = true)

/-- No character of any value of `dict` is a key of `dict`. -/
def ValuesAvoidKeys (dict : JSObject) : Prop :=
  ∀ p ∈ dict, ∀ u ∈ codePoints p.2, dict.has u = false

/-- No value of `dict` begins with a trailing surrogate or ends with a leading
surrogate. -/
def ValuesKeepSeams (dict : JSObject) : Prop :=
  ∀ p ∈ dict, startsWithTrailingSurrogate p.2 = false ∧ endsWithLeadingSurrogate p.2 = false

/-- No value of `dict` is a surrogate code unit alone. -/
def NoLoneSurrogateValue (dict : JSObject) : Prop :=
  ∀ p ∈ dict, isLoneSurrogate p.2 = false

/-- The substitution leaves the character `u` in place: `u` is not a key of
`dict`, or its value is the empty string or `u` itself. -/
def KeepsChar (dict : JSObject) (u : JSString) : Prop :=
  dict.get u = none ∨ dict.get u = some [] ∨ dict.get u = some u

/-- The dictionary `{"a": ""}`. -/
def emptyValueDict : JSObject :=
  [(utf16 "a", utf16 "")]

/-- The dictionary `{"a": "a"}`. -/
def identityDict : JSObject :=
  [(utf16 "a", utf16 "a")]

/-- The dictionary `{"a": "\uD83D", "b": "\uDE00", "😀": "Z"}`: the values of
`a` and `b` are the two halves of the surrogate pair of `😀`. -/
def surrogateHalvesDict : JSObject :=
  [(utf16 "a", [0xD83D]), (utf16 "b", [0xDE00]), (utf16 "😀", utf16 "Z")]

/-- The dictionary `{"😀": "\uD83D", "a": "\uDE00a"}`. -/
def surrogateShiftDict : JSObject :=
  [(utf16 "😀", [0xD83D]), (utf16 "a", [0xDE00, 0x61])]

mutual
/-- The tree C3 describes: the same shape and tags; outside every `SCRIPT`,
`STYLE` and `NOSCRIPT` element each text node holds the substitution of its
content and each `alt`, `title` or `placeholder` attribute that is present
holds the substitution of its value; everything else is as it was. -/
def substituteTree (dict : JSObject) : Node → Node
  | .text textContent => .text (substituteText dict textContent)
  | .element tagName attributes childNodes =>
    if isExcludedTag tagName then .element tagName attributes childNodes
    else
      .element tagName
        (fun name =>
          if name ∈ substitutedAttributes then (attributes name).map (substituteText dict)
          else attributes name)
        (substituteTrees dict childNodes)
  | .other nodeType => .other nodeType
/-- The trees C3 describes for a list of child nodes. -/
def substituteTrees (dict : JSObject) : List Node → List Node
  | [] => []
  | child :: rest => substituteTree dict child :: substituteTrees dict rest
end

/-- The node reached from `root` by descending into the child of the given
index at each step of `path`. -/
def subtreeAt : Node → List Nat → Option Node
  | node, [] => some node
  | .element _ _ childNodes, i :: path =>
    match childNodes[i]? with
    | some child => subtreeAt child path
    | none => none
  | .text _, _ :: _ => none
  | .other _, _ :: _ => none

/-- A page body: a paragraph with a title, holding a text and a script element
that has a title and a text of its own. -/
def sampleBody : Node :=
  .element (utf16 "P")
    (fun name => if name = utf16 "title" then some (utf16 "亜") else none)
    [.text (utf16 "亜"),
      .element (utf16 "SCRIPT")
        (fun name => if name = utf16 "title" then some (utf16 "亜") else none)
        [.text (utf16 "亜")]]

/-! ## Lemmas on objects -/

theorem JSObject.get_define (o : JSObject) (k k' v : JSString) :
    (o.define k v).get k' = if k = k' then some v else o.get k' := by
  induction o with
  | nil => simp [JSObject.define, JSObject.get]
  | cons p o ih =>
    obtain ⟨a, b⟩ := p
    by_cases h : a = k
    · subst h
      by_cases h' : a = k' <;> simp [JSObject.define, JSObject.get, h']
    · by_cases h' : a = k'
      · subst h'
        have hk : ¬ k = a := fun e => h e.symm
        simp [JSObject.define, JSObject.get, h, hk]
      · simp [JSObject.define, JSObject.get, h, h', ih]

theorem JSObject.get_delete (o : JSObject) (k k' : JSString) :
    (o.delete k).get k' = if k = k' then none else o.get k' := by
  induction o with
  | nil => simp [JSObject.delete, JSObject.get]
  | cons p o ih =>
    obtain ⟨a, b⟩ := p
    unfold JSObject.delete at ih ⊢
    rw [List.filter_cons]
    by_cases h : a = k
    · subst h
      by_cases h' : a = k'
      · simpa [JSObject.get, h'] using ih
      · simpa [JSObject.get, h'] using ih
    · by_cases h' : a = k'
      · subst h'
        have hk : ¬ k = a := fun e => h e.symm
        simp [JSObject.get, h, hk]
      · simpa [JSObject.get, h, h'] using ih

theorem JSObject.get_eq_none_of_not_mem_keys (o : JSObject) (k : JSString)
    (h : k ∉ o.keys) : o.get k = none := by
  induction o with
  | nil => rfl
  | cons p o ih =>
    obtain ⟨a, b⟩ := p
    simp only [JSObject.keys, List.map_cons, List.mem_cons, not_or] at h
    have ha : ¬ a = k := fun e => h.1 e.symm
    simp only [JSObject.get, ha, if_false]
    exact ih h.2

theorem JSObject.get_foldl_spread (source : JSObject) (ks : List JSString) (t : JSObject)
    (k : JSString) :
    (ks.foldl (fun t k => match source.get k with
        | some v => JSObject.define t k v
        | none => t) t).get k =
      if k ∈ ks then (match source.get k with
        | some v => some v
        | none => t.get k) else t.get k := by
  induction ks generalizing t with
  | nil => simp
  | cons a ks ih =>
    rw [List.foldl_cons, ih]
    by_cases hk : k ∈ ks
    · simp only [hk, List.mem_cons, or_true, if_true]
      cases hs : source.get k with
      | some v => rfl
      | none =>
        simp only
        cases ha : source.get a with
        | none => rfl
        | some w =>
          simp only [JSObject.get_define]
          by_cases e : a = k
          · subst e; rw [hs] at ha; cases ha
          · simp [e]
    · by_cases e : a = k
      · subst e
        simp only [hk, List.mem_cons, true_or, if_true, if_false]
        cases ha : source.get a with
        | none => rfl
        | some w => simp [JSObject.get_define]
      · have e' : ¬ k = a := fun h => e h.symm
        simp only [hk, List.mem_cons, e', or_false, if_false]
        cases ha : source.get a with
        | none => rfl
        | some w => simp [JSObject.get_define, e]

theorem JSObject.get_spread (target source : JSObject) (k : JSString) :
    (JSObject.spread target source).get k =
      match source.get k with
      | some v => some v
      | none => target.get k := by
  unfold JSObject.spread
  rw [JSObject.get_foldl_spread]
  by_cases hk : k ∈ source.keys
  · simp [hk]
  · simp [hk, JSObject.get_eq_none_of_not_mem_keys source k hk]

theorem JSObject.get_foldl_delete (ks : List JSString) (o : JSObject) (k : JSString) :
    (ks.foldl (fun merged key => JSObject.delete merged key) o).get k =
      if k ∈ ks then none else o.get k := by
  induction ks generalizing o with
  | nil => simp
  | cons a ks ih =>
    rw [List.foldl_cons, ih, JSObject.get_delete]
    by_cases hk : k ∈ ks
    · simp [hk]
    · by_cases e : a = k
      · subst e; simp
      · have e' : ¬ k = a := fun h => e h.symm
        simp [hk, e, e']

/-- The read of a key from the merged dictionary: nothing when the key is
deleted, else the user's value when there is one, else the base value. -/
theorem getMergedDict_get (st : State) (k : JSString) :
    (getMergedDict st).get k =
      if k ∈ st.deletedKeys then none
      else match st.userDict.get k with
        | some v => some v
        | none => st.defaultDict.get k := by
  unfold getMergedDict
  simp only [JSObject.get_foldl_delete, JSObject.get_spread, JSObject.get]
  cases st.defaultDict.get k <;> rfl

theorem JSObject.mem_keys_iff (o : JSObject) (k : JSString) :
    k ∈ o.keys ↔ o.has k = true := by
  induction o with
  | nil => simp [JSObject.keys, JSObject.has, JSObject.get]
  | cons p o ih =>
    obtain ⟨a, b⟩ := p
    by_cases h : a = k
    · subst h; simp [JSObject.keys, JSObject.has, JSObject.get]
    · have h' : ¬ k = a := fun e => h e.symm
      simp only [JSObject.keys, JSObject.has] at ih
      simp [JSObject.keys, JSObject.has, JSObject.get, h, h', ih]

theorem JSObject.has_define (o : JSObject) (k k' v : JSString) :
    (o.define k v).has k' = (decide (k = k') || o.has k') := by
  unfold JSObject.has
  rw [JSObject.get_define]
  by_cases h : k = k' <;> simp [h]

theorem JSObject.get_assign (o : JSObject) (k k' v : JSString) :
    (o.assign k v).get k' =
      if k = k' ∧ (k ≠ utf16 "__proto__" ∨ o.has k = true) then some v else o.get k' := by
  unfold JSObject.assign
  by_cases hp : k = utf16 "__proto__" ∧ o.has k = false
  · rw [if_pos hp]
    have : ¬ (k = k' ∧ (k ≠ utf16 "__proto__" ∨ o.has k = true)) := by
      rintro ⟨_, h | h⟩
      · exact h hp.1
      · rw [hp.2] at h; cases h
    rw [if_neg this]
  · rw [if_neg hp, JSObject.get_define]
    by_cases e : k = k'
    · have : k ≠ utf16 "__proto__" ∨ o.has k = true := by
        by_cases h1 : k = utf16 "__proto__"
        · right
          cases hh : o.has k with
          | true => rfl
          | false => exact absurd ⟨h1, hh⟩ hp
        · exact Or.inl h1
      simp [e, this, e ▸ this]
    · simp [e]

theorem JSObject.get_foldl_assign_of_not_mem (ps : List (JSString × JSString))
    (o : JSObject) (k : JSString) (hk : k ∉ ps.map Prod.fst) :
    (ps.foldl (fun u p => JSObject.assign u p.1 p.2) o).get k = o.get k := by
  induction ps generalizing o with
  | nil => rfl
  | cons p ps ih =>
    simp only [List.map_cons, List.mem_cons, not_or] at hk
    rw [List.foldl_cons, ih _ hk.2, JSObject.get_assign]
    have h : ¬ p.1 = k := fun e => hk.1 e.symm
    simp [h]

theorem JSObject.get_foldl_assign_of_mem (ps : List (JSString × JSString))
    (o : JSObject) (k v : JSString) (hn : (ps.map Prod.fst).Nodup) (hmem : (k, v) ∈ ps)
    (hk : k ≠ utf16 "__proto__") :
    (ps.foldl (fun u p => JSObject.assign u p.1 p.2) o).get k = some v := by
  induction ps generalizing o with
  | nil => cases hmem
  | cons p ps ih =>
    rw [List.map_cons, List.nodup_cons] at hn
    rw [List.foldl_cons]
    rcases List.mem_cons.mp hmem with e | hmem
    · subst e
      rw [JSObject.get_foldl_assign_of_not_mem _ _ _ hn.1, JSObject.get_assign]
      simp [hk]
    · exact ih _ hn.2 hmem

theorem JSObject.has_foldl_assign (ps : List (JSString × JSString)) (o : JSObject)
    (k : JSString) (hmem : k ∈ ps.map Prod.fst) (hk : k ≠ utf16 "__proto__") :
    (ps.foldl (fun u p => JSObject.assign u p.1 p.2) o).has k = true := by
  have hkeep : ∀ (qs : List (JSString × JSString)) (u : JSObject), u.has k = true →
      (qs.foldl (fun u p => JSObject.assign u p.1 p.2) u).has k = true := by
    intro qs
    induction qs with
    | nil => intro u hu; exact hu
    | cons q qs ih =>
      intro u hu
      rw [List.foldl_cons]
      apply ih
      unfold JSObject.has at hu ⊢
      rw [JSObject.get_assign]
      split
      · rfl
      · exact hu
  induction ps generalizing o with
  | nil => simp at hmem
  | cons p ps ih =>
    rw [List.foldl_cons]
    by_cases e : p.1 = k
    · apply hkeep
      unfold JSObject.has
      rw [JSObject.get_assign]
      simp [e, hk]
    · apply ih
      simp only [List.map_cons, List.mem_cons] at hmem
      rcases hmem with h | h
      · exact absurd h.symm e
      · exact h

theorem foldl_importStep (entries : List (JSString × JSValue)) (u : JSObject) (n : Nat) :
    entries.foldl importStep (u, n) =
      ((acceptedPairs entries).foldl (fun u p => JSObject.assign u p.1 p.2) u,
        n + (acceptedPairs entries).length) := by
  induction entries generalizing u n with
  | nil => simp [acceptedPairs]
  | cons e entries ih =>
    obtain ⟨k, v⟩ := e
    cases v <;>
      simp [importStep, acceptedPairs, List.filterMap_cons, ih, Nat.add_assoc, Nat.add_comm]

theorem mem_acceptedPairs (entries : List (JSString × JSValue)) (k v : JSString) :
    (k, v) ∈ acceptedPairs entries ↔ (k, JSValue.string v) ∈ entries := by
  unfold acceptedPairs
  rw [List.mem_filterMap]
  constructor
  · rintro ⟨⟨a, w⟩, hmem, h⟩
    cases w <;> simp at h
    obtain ⟨rfl, rfl⟩ := h
    exact hmem
  · intro h
    exact ⟨(k, .string v), h, rfl⟩

theorem JSObject.not_mem_keys_iff (o : JSObject) (k : JSString) :
    k ∉ o.keys ↔ o.get k = none := by
  rw [JSObject.mem_keys_iff, JSObject.has]
  cases o.get k <;> simp

/-! ## The merged dictionary -/

/-- C1 as stated fails: with user `{a: x}` and deleted keys `[a]` the key `a`
of the user layer is not a key of the merged dictionary. -/
theorem getMergedDict_keys_counterexample :
    ¬ (∀ k : JSString, k ∈ (getMergedDict deletedUserKeyState).keys ↔
        (k ∈ deletedUserKeyState.defaultDict.keys ∧ k ∉ deletedUserKeyState.deletedKeys) ∨
          k ∈ deletedUserKeyState.userDict.keys) := by
  intro h
  have h1 := (h (utf16 "a")).mpr (Or.inr (by decide))
  revert h1
  decide

/-- C1 (amended): the keys of `getMergedDict()` are the keys of the base or of
the user layer that are not deleted; a key of the user layer that is not
deleted maps to the user's value, and every other key of the base that is not
deleted maps to the base value. -/
theorem getMergedDict_spec (st : State) (k : JSString) :
    (k ∈ (getMergedDict st).keys ↔
      (k ∈ st.defaultDict.keys ∨ k ∈ st.userDict.keys) ∧ k ∉ st.deletedKeys) ∧
    (k ∉ st.deletedKeys → ∀ v, st.userDict.get k = some v →
      (getMergedDict st).get k = some v) ∧
    (k ∉ st.deletedKeys → k ∉ st.userDict.keys →
      (getMergedDict st).get k = st.defaultDict.get k) := by
  refine ⟨?_, ?_, ?_⟩
  · simp only [JSObject.mem_keys_iff, JSObject.has, getMergedDict_get]
    by_cases hd : k ∈ st.deletedKeys
    · simp [hd]
    · cases hu : st.userDict.get k <;> simp [hd]
  · intro hd v hv
    rw [getMergedDict_get, hv]
    simp [hd]
  · intro hd hu
    rw [JSObject.not_mem_keys_iff] at hu
    rw [getMergedDict_get, hu]
    simp [hd]

/-- The amended C1 at base `{亜: a}`, user `{a: x}`, no deleted key. -/
theorem getMergedDict_spec_witness :
    (getMergedDict ⟨[(utf16 "亜", utf16 "a")], [(utf16 "a", utf16 "x")], []⟩).get (utf16 "a") =
        some (utf16 "x") ∧
      (getMergedDict ⟨[(utf16 "亜", utf16 "a")], [(utf16 "a", utf16 "x")], []⟩).get (utf16 "亜") =
        some (utf16 "a") :=
  ⟨(getMergedDict_spec ⟨[(utf16 "亜", utf16 "a")], [(utf16 "a", utf16 "x")], []⟩
      (utf16 "a")).2.1 (by decide) (utf16 "x") (by decide),
    (getMergedDict_spec ⟨[(utf16 "亜", utf16 "a")], [(utf16 "a", utf16 "x")], []⟩
      (utf16 "亜")).2.2 (by decide) (by decide)⟩

/-! ## Adding, editing and deleting an entry -/

theorem not_mem_filter_ne (ks : List JSString) (c : JSString) :
    c ∉ ks.filter (fun k => decide (k ≠ c)) := by
  simp [List.mem_filter]

theorem addBtnClick_of_nonempty (st : State) (c v : JSString)
    (hc : trim c ≠ []) (hv : trim v ≠ []) :
    addBtnClick st c v =
      { st with
        userDict := st.userDict.assign (trim c) (trim v)
        deletedKeys := st.deletedKeys.filter (fun k => decide (k ≠ trim c)) } := by
  simp [addBtnClick, hc, hv]

theorem addBtnClick_entry (st : State) (c v : JSString)
    (hc : trim c ≠ []) (hv : trim v ≠ []) (hp : trim c ≠ utf16 "__proto__") :
    (addBtnClick st c v).userDict.get (trim c) = some (trim v) ∧
      trim c ∉ (addBtnClick st c v).deletedKeys ∧
      (getMergedDict (addBtnClick st c v)).get (trim c) = some (trim v) := by
  rw [addBtnClick_of_nonempty st c v hc hv]
  have h1 : (st.userDict.assign (trim c) (trim v)).get (trim c) = some (trim v) := by
    simp [JSObject.get_assign, hp]
  refine ⟨h1, not_mem_filter_ne _ _, ?_⟩
  rw [getMergedDict_get]
  simp only [h1]
  simp [not_mem_filter_ne]

theorem save_entry (st : State) (c v : JSString) (hv : trim v ≠ [])
    (hp : c ≠ utf16 "__proto__") :
    (save st c v).userDict.get c = some (trim v) ∧ c ∉ (save st c v).deletedKeys ∧
      (getMergedDict (save st c v)).get c = some (trim v) := by
  have hs : save st c v =
      { st with
        userDict := st.userDict.assign c (trim v)
        deletedKeys := st.deletedKeys.filter (fun k => decide (k ≠ c)) } := by
    simp [save, hv]
  rw [hs]
  have h1 : (st.userDict.assign c (trim v)).get c = some (trim v) := by
    simp [JSObject.get_assign, hp]
  refine ⟨h1, not_mem_filter_ne _ _, ?_⟩
  rw [getMergedDict_get]
  simp only [h1]
  simp [not_mem_filter_ne]

/-- C7 as stated fails: the add handler trims its inputs, so from the input
values `" a"` and `"b"` the user layer gets no entry for `" a"`. -/
theorem addBtnClick_untrimmed_counterexample :
    trim (utf16 " a") ≠ [] ∧ trim (utf16 "b") ≠ [] ∧
      ¬ ((addBtnClick emptyState (utf16 " a") (utf16 "b")).userDict.get (utf16 " a") =
          some (utf16 "b")) := by
  decide

/-- C7 (amended): for input values `c` and `v` that are non-empty after
trimming, `trim c` not being the name `__proto__`, the add handler leaves the
user layer mapping `trim c` to `trim v`, `trim c` not deleted and
`getMergedDict()[trim c] = trim v`; the edit handler of an item `c` other than
`__proto__` leaves the user layer mapping `c` to `trim v`, `c` not deleted and
`getMergedDict()[c] = trim v`; and adding `c, v`, deleting the item `trim c`,
then adding `c, v2` ends with `getMergedDict()[trim c] = trim v2` and `trim c`
not deleted. -/
theorem setEntry_spec (st : State) (c v v2 : JSString)
    (hc : trim c ≠ []) (hv : trim v ≠ []) (hv2 : trim v2 ≠ [])
    (hp : trim c ≠ utf16 "__proto__") :
    ((addBtnClick st c v).userDict.get (trim c) = some (trim v) ∧
      trim c ∉ (addBtnClick st c v).deletedKeys ∧
      (getMergedDict (addBtnClick st c v)).get (trim c) = some (trim v)) ∧
    (c ≠ utf16 "__proto__" →
      (save st c v).userDict.get c = some (trim v) ∧ c ∉ (save st c v).deletedKeys ∧
      (getMergedDict (save st c v)).get c = some (trim v)) ∧
    ((getMergedDict (addBtnClick (deleteClick (addBtnClick st c v) (trim c)) c v2)).get
        (trim c) = some (trim v2) ∧
      trim c ∉ (addBtnClick (deleteClick (addBtnClick st c v) (trim c)) c v2).deletedKeys) :=
  ⟨addBtnClick_entry st c v hc hv hp, fun hs => save_entry st c v hv hs,
    (addBtnClick_entry (deleteClick (addBtnClick st c v) (trim c)) c v2 hc hv2 hp).2.2,
    (addBtnClick_entry (deleteClick (addBtnClick st c v) (trim c)) c v2 hc hv2 hp).2.1⟩

/-- The amended C7 from base `{亜: a}` with the input values `" 亜"`, `"A "`
and `"B"`. -/
theorem setEntry_spec_witness :
    (getMergedDict (addBtnClick baseOnlyState (utf16 " 亜") (utf16 "A "))).get (utf16 "亜") =
        some (utf16 "A") ∧
      (getMergedDict (addBtnClick (deleteClick (addBtnClick baseOnlyState (utf16 " 亜")
        (utf16 "A ")) (utf16 "亜")) (utf16 " 亜") (utf16 "B"))).get (utf16 "亜") =
        some (utf16 "B") :=
  ⟨(setEntry_spec baseOnlyState (utf16 " 亜") (utf16 "A ") (utf16 "B")
      (by decide) (by decide) (by decide) (by decide)).1.2.2,
    (setEntry_spec baseOnlyState (utf16 " 亜") (utf16 "A ") (utf16 "B")
      (by decide) (by decide) (by decide) (by decide)).2.2.1⟩

theorem JSObject.get_eq_none_of_has_eq_false (o : JSObject) (k : JSString)
    (h : o.has k = false) : o.get k = none := by
  unfold JSObject.has at h
  cases hg : o.get k with
  | none => rfl
  | some w => simp [hg] at h

theorem JSObject.has_eq_false_of_hasProperty (o : JSObject) (k : JSString)
    (h : o.hasProperty k = false) : o.has k = false := by
  unfold JSObject.hasProperty at h
  cases hh : o.has k with
  | false => rfl
  | true => simp [hh] at h

theorem deleteClick_userDict_get (st : State) (c : JSString) :
    (deleteClick st c).userDict.get c = none := by
  unfold deleteClick
  cases h : st.userDict.hasProperty c with
  | true => simp [JSObject.get_delete]
  | false =>
    simpa using JSObject.get_eq_none_of_has_eq_false _ _
      (JSObject.has_eq_false_of_hasProperty _ _ h)

theorem deleteClick_deletedKeys (st : State) (c : JSString) :
    (deleteClick st c).deletedKeys =
      if st.defaultDict.hasProperty c = true ∧ c ∉ st.deletedKeys then st.deletedKeys ++ [c]
      else st.deletedKeys := by
  unfold deleteClick
  by_cases h1 : st.defaultDict.hasProperty c = true <;> by_cases h2 : c ∈ st.deletedKeys <;>
    simp [h1, h2]

/-- C8 as stated fails: with base `{亜: a}`, no user entry and no deleted key,
`constructor` is a key of neither layer, yet `'constructor' in defaultDict`
holds by inheritance and the delete handler adds it to the deleted keys. -/
theorem deleteClick_inherited_counterexample :
    utf16 "constructor" ∉ baseOnlyState.defaultDict.keys ∧
      utf16 "constructor" ∉ baseOnlyState.userDict.keys ∧
      (deleteClick baseOnlyState (utf16 "constructor")).deletedKeys = [utf16 "constructor"] ∧
      deleteClick baseOnlyState (utf16 "constructor") ≠ baseOnlyState := by
  refine ⟨by decide, by decide, by decide, ?_⟩
  intro h
  have h' := congrArg State.deletedKeys h
  revert h'
  decide

/-- C8 (amended): after the delete handler of the item `c`, `c` is not a key
of the user layer; `c` is in the deleted keys whenever it is a key of the
base; the deleted keys are unchanged or, when `c` was not among them, extended
by `c` alone; `c` is not a key of `getMergedDict()`; and when `c` is a key of
neither base nor user layer and not the name of a member inherited from
`Object.prototype`, the state is unchanged.  From base `{亜: a}`, user `{}`,
deleted `[]` the deleted keys become `[亜]` and `getMergedDict()` is `{}`. -/
theorem deleteClick_spec :
    (∀ (st : State) (c : JSString),
      c ∉ (deleteClick st c).userDict.keys ∧
      (c ∈ st.defaultDict.keys → c ∈ (deleteClick st c).deletedKeys) ∧
      ((deleteClick st c).deletedKeys = st.deletedKeys ∨
        (c ∉ st.deletedKeys ∧ (deleteClick st c).deletedKeys = st.deletedKeys ++ [c])) ∧
      c ∉ (getMergedDict (deleteClick st c)).keys ∧
      (c ∉ st.defaultDict.keys → c ∉ st.userDict.keys → c ∉ objectPrototypeKeys →
        deleteClick st c = st)) ∧
    ((deleteClick baseOnlyState (utf16 "亜")).deletedKeys = [utf16 "亜"] ∧
      getMergedDict (deleteClick baseOnlyState (utf16 "亜")) = []) := by
  refine ⟨fun st c => ⟨?_, ?_, ?_, ?_, ?_⟩, by decide⟩
  · rw [JSObject.not_mem_keys_iff]
    exact deleteClick_userDict_get st c
  · intro hb
    rw [JSObject.mem_keys_iff] at hb
    have hb' : st.defaultDict.hasProperty c = true := by
      simp [JSObject.hasProperty, hb]
    rw [deleteClick_deletedKeys]
    by_cases h2 : c ∈ st.deletedKeys <;> simp [hb', h2]
  · rw [deleteClick_deletedKeys]
    by_cases h1 : st.defaultDict.hasProperty c = true <;> by_cases h2 : c ∈ st.deletedKeys <;>
      simp [h1, h2]
  · rw [JSObject.not_mem_keys_iff, getMergedDict_get, deleteClick_userDict_get,
      deleteClick_deletedKeys]
    have hdef : (deleteClick st c).defaultDict = st.defaultDict := rfl
    rw [hdef]
    by_cases h1 : st.defaultDict.hasProperty c = true <;> by_cases h2 : c ∈ st.deletedKeys
    · simp [h1, h2]
    · simp [h1, h2]
    · simp [h1, h2]
    · have hn : st.defaultDict.get c = none :=
        JSObject.get_eq_none_of_has_eq_false _ _
          (JSObject.has_eq_false_of_hasProperty _ _ (by simpa using h1))
      simp [h1, h2, hn]
  · intro hb hu hp
    rw [JSObject.mem_keys_iff] at hb hu
    have hb' : st.defaultDict.hasProperty c = false := by
      simp [JSObject.hasProperty, hb, hp]
    have hu' : st.userDict.hasProperty c = false := by
      simp [JSObject.hasProperty, hu, hp]
    simp [deleteClick, hb', hu']

/-- The delete handler at a key of the base, and at a key of no layer that
`Object.prototype` has no member for. -/
theorem deleteClick_spec_witness :
    utf16 "亜" ∈ (deleteClick baseOnlyState (utf16 "亜")).deletedKeys ∧
      deleteClick baseOnlyState (utf16 "x") = baseOnlyState :=
  ⟨(deleteClick_spec.1 baseOnlyState (utf16 "亜")).2.1 (by decide),
    (deleteClick_spec.1 baseOnlyState (utf16 "x")).2.2.2.2 (by decide) (by decide)
      (by decide)⟩

/-! ## Import -/

theorem importFileChange_eq (st : State) (entries : List (JSString × JSValue)) :
    importFileChange st entries =
      ({ st with
          userDict := (acceptedPairs entries).foldl (fun u p => JSObject.assign u p.1 p.2)
            st.userDict },
        (acceptedPairs entries).length) := by
  simp [importFileChange, foldl_importStep]

theorem acceptedPairs_keys_sublist (entries : List (JSString × JSValue)) :
    ((acceptedPairs entries).map Prod.fst).Sublist (entries.map Prod.fst) := by
  induction entries with
  | nil => simp [acceptedPairs]
  | cons e entries ih =>
    obtain ⟨k, v⟩ := e
    unfold acceptedPairs at ih ⊢
    cases v <;> simp [List.filterMap_cons, ih, List.Sublist.cons]

/-- C9 as stated fails: of the three entries of `{"a":"b","x":1,2:"y"}`
the import does not accept `a -> b` alone with count 1. -/
theorem importFileChange_rawMapping_counterexample :
    ¬ (((importFileChange emptyState rawMappingEntries).1.userDict.get (utf16 "a") =
          some (utf16 "b") ∧
        ∀ k, k ∈ (importFileChange emptyState rawMappingEntries).1.userDict.keys ↔
          k = utf16 "a") ∧
      (importFileChange emptyState rawMappingEntries).2 = 1) := by
  intro h
  have h2 := h.2
  revert h2
  decide

/-- C9 (amended): importing the entries of `{"a":"b","x":1,2:"y"}` into an
empty user layer accepts `2 -> y` and `a -> b`, the property name written `2`
being the string `"2"`: the user layer maps `"2"` to `y` and `a` to `b`, these
are its keys, and the count is 2.  In general the accepted pairs are the
entries whose value is a string and the count is their number; when the
entries have distinct keys, as `Object.entries` lists them, the user layer
then maps the key of every accepted pair, `__proto__` apart, to the value of
the pair, and every key of no accepted pair is read as before. -/
theorem importFileChange_spec :
    (((importFileChange emptyState rawMappingEntries).1.userDict.get (utf16 "2") =
          some (utf16 "y") ∧
        (importFileChange emptyState rawMappingEntries).1.userDict.get (utf16 "a") =
          some (utf16 "b") ∧
        ∀ k, k ∈ (importFileChange emptyState rawMappingEntries).1.userDict.keys ↔
          k = utf16 "2" ∨ k = utf16 "a") ∧
      (importFileChange emptyState rawMappingEntries).2 = 2) ∧
    ∀ (st : State) (entries : List (JSString × JSValue)),
      (∀ k v, (k, v) ∈ acceptedPairs entries ↔ (k, JSValue.string v) ∈ entries) ∧
      (importFileChange st entries).2 = (acceptedPairs entries).length ∧
      (∀ k v, (entries.map Prod.fst).Nodup → (k, JSValue.string v) ∈ entries →
        k ≠ utf16 "__proto__" →
        (importFileChange st entries).1.userDict.get k = some v) ∧
      (∀ k, (∀ v, (k, JSValue.string v) ∉ entries) →
        (importFileChange st entries).1.userDict.get k = st.userDict.get k) := by
  refine ⟨⟨⟨by decide, by decide, ?_⟩, by decide⟩,
    fun st entries => ⟨mem_acceptedPairs entries, ?_, ?_, ?_⟩⟩
  · have h : (importFileChange emptyState rawMappingEntries).1.userDict =
        [(utf16 "2", utf16 "y"), (utf16 "a", utf16 "b")] := by decide
    intro k
    rw [h]
    simp [JSObject.keys]
  · rw [importFileChange_eq]
  · intro k v hn hmem hk
    rw [importFileChange_eq]
    exact JSObject.get_foldl_assign_of_mem _ _ k v
      (hn.sublist (acceptedPairs_keys_sublist entries))
      ((mem_acceptedPairs entries k v).mpr hmem) hk
  · intro k hk
    rw [importFileChange_eq]
    apply JSObject.get_foldl_assign_of_not_mem
    intro hmem
    obtain ⟨⟨k', v⟩, hp, rfl⟩ := List.mem_map.mp hmem
    exact hk v ((mem_acceptedPairs entries _ v).mp hp)

/-- The general part of the amended C9 on the entries of
`{"a":"b","x":1,2:"y"}`, at an accepted key and at a key that is not. -/
theorem importFileChange_spec_witness :
    (importFileChange baseOnlyState rawMappingEntries).1.userDict.get (utf16 "a") =
        some (utf16 "b") ∧
      (importFileChange baseOnlyState rawMappingEntries).1.userDict.get (utf16 "x") =
        baseOnlyState.userDict.get (utf16 "x") :=
  ⟨(importFileChange_spec.2 baseOnlyState rawMappingEntries).2.2.1 (utf16 "a") (utf16 "b")
      (by decide) (List.mem_cons_of_mem _ (List.mem_cons_self _ _)) (by decide),
    (importFileChange_spec.2 baseOnlyState rawMappingEntries).2.2.2 (utf16 "x")
      (by
        intro v hv
        have h2 : utf16 "x" ≠ utf16 "2" := by decide
        have ha : utf16 "x" ≠ utf16 "a" := by decide
        simp [rawMappingEntries, h2, ha] at hv)⟩

/-- C10 as stated fails: with `__proto__` among the deleted keys, importing
`{"__proto__": "x"}` counts the entry but the assignment stores nothing, so
`__proto__` is not a key of the user layer afterwards. -/
theorem importFileChange_proto_counterexample :
    (utf16 "__proto__", JSValue.string (utf16 "x")) ∈ protoEntries ∧
      utf16 "__proto__" ∈ protoDeletedState.deletedKeys ∧
      utf16 "__proto__" ∉ (importFileChange protoDeletedState protoEntries).1.userDict.keys ∧
      (importFileChange protoDeletedState protoEntries).2 = 1 :=
  ⟨List.mem_singleton.mpr rfl, by decide, by decide, by decide⟩

/-- C10 (amended): the import leaves the deleted keys unchanged; so a deleted
key `c` that is imported with a string value is afterwards still a deleted
key and not a key of `getMergedDict()`, and, unless `c` is the name
`__proto__`, a key of the user layer. -/
theorem importFileChange_keeps_deletedKeys (st : State)
    (entries : List (JSString × JSValue)) :
    (importFileChange st entries).1.deletedKeys = st.deletedKeys ∧
    ∀ c v, (c, JSValue.string v) ∈ entries → c ∈ st.deletedKeys →
      (c ≠ utf16 "__proto__" → c ∈ (importFileChange st entries).1.userDict.keys) ∧
      c ∈ (importFileChange st entries).1.deletedKeys ∧
      c ∉ (getMergedDict (importFileChange st entries).1).keys := by
  rw [importFileChange_eq]
  refine ⟨rfl, fun c v hmem hdel => ⟨fun hc => ?_, hdel, ?_⟩⟩
  · rw [JSObject.mem_keys_iff]
    have hk : c ∈ (acceptedPairs entries).map Prod.fst :=
      List.mem_map.mpr ⟨(c, v), (mem_acceptedPairs entries c v).mpr hmem, rfl⟩
    exact JSObject.has_foldl_assign _ _ c hk hc
  · rw [JSObject.not_mem_keys_iff, getMergedDict_get]
    simp [hdel]

/-- The amended C10 at base `{亜: a}` with `亜` deleted, importing `{"亜": "A"}`. -/
theorem importFileChange_keeps_deletedKeys_witness :
    utf16 "亜" ∈ (importFileChange ⟨[(utf16 "亜", utf16 "a")], [], [utf16 "亜"]⟩
        [(utf16 "亜", .string (utf16 "A"))]).1.userDict.keys ∧
      utf16 "亜" ∈ (importFileChange ⟨[(utf16 "亜", utf16 "a")], [], [utf16 "亜"]⟩
        [(utf16 "亜", .string (utf16 "A"))]).1.deletedKeys ∧
      utf16 "亜" ∉ (getMergedDict (importFileChange ⟨[(utf16 "亜", utf16 "a")], [],
        [utf16 "亜"]⟩ [(utf16 "亜", .string (utf16 "A"))]).1).keys :=
  ⟨((importFileChange_keeps_deletedKeys ⟨[(utf16 "亜", utf16 "a")], [], [utf16 "亜"]⟩
      [(utf16 "亜", .string (utf16 "A"))]).2 (utf16 "亜") (utf16 "A")
      (List.mem_singleton.mpr rfl) (by decide)).1 (by decide),
    ((importFileChange_keeps_deletedKeys ⟨[(utf16 "亜", utf16 "a")], [], [utf16 "亜"]⟩
      [(utf16 "亜", .string (utf16 "A"))]).2 (utf16 "亜") (utf16 "A")
      (List.mem_singleton.mpr rfl) (by decide)).2⟩

/-! ## The substitution of one text -/

theorem foldl_append_eq_flatMap (f : JSString → JSString) (us : List JSString)
    (acc : JSString) :
    us.foldl (fun out ch => out ++ f ch) acc = acc ++ us.flatMap f := by
  induction us generalizing acc with
  | nil => simp
  | cons u us ih => simp [List.foldl_cons, ih, List.flatMap_cons, List.append_assoc]

theorem substituteText_eq_flatMap (dict : JSObject) (orig : JSString) :
    substituteText dict orig = (codePoints orig).flatMap fun u => orElse (dict.get u) u := by
  unfold substituteText
  rw [foldl_append_eq_flatMap]
  rfl

/-- C2 as stated fails: with `{"a": ""}` the text `a` is left as it is, and
not replaced by the empty value of its key. -/
theorem substituteText_emptyValue_counterexample :
    substituteText emptyValueDict (utf16 "a") ≠ substituteByKey emptyValueDict (utf16 "a") := by
  decide

/-- C2 (amended): the text `walk` writes is the concatenation, over the code
points `u` of `s` in order, of `dict[u]` when `u` is a key of `dict` whose
value is not the empty string, and of `u` itself otherwise. -/
theorem substituteText_spec (dict : JSObject) (s : JSString) :
    substituteText dict s =
      (codePoints s).flatMap fun u =>
        match dict.get u with
        | some v => if v = [] then u else v
        | none => u := by
  rw [substituteText_eq_flatMap]
  congr 1
  funext u
  cases dict.get u <;> rfl

/-! ## The string iterator -/

theorem codePoints_cons_cons (u v : CodeUnit) (rest : JSString) :
    codePoints (u :: v :: rest) =
      if isLeadingSurrogate u && isTrailingSurrogate v then [u, v] :: codePoints rest
      else [u] :: codePoints (v :: rest) := rfl

theorem flatten_codePoints (s : JSString) : (codePoints s).flatten = s := by
  induction s using codePoints.induct with
  | case1 => rfl
  | case2 u => rfl
  | case3 u v rest h ih =>
    rw [codePoints_cons_cons, if_pos h]
    simp [ih]
  | case4 u v rest h ih =>
    rw [codePoints_cons_cons, if_neg h]
    simp [ih]

/-- Every value the string iterator yields is one code unit or a surrogate pair. -/
theorem codePoints_shape (s : JSString) :
    ∀ u ∈ codePoints s, (∃ a, u = [a]) ∨
      ∃ a b, u = [a, b] ∧ isLeadingSurrogate a = true ∧ isTrailingSurrogate b = true := by
  induction s using codePoints.induct with
  | case1 => simp [codePoints]
  | case2 u => simp [codePoints]
  | case3 u v rest h ih =>
    rw [codePoints_cons_cons, if_pos h]
    intro w hw
    rcases List.mem_cons.mp hw with rfl | hw
    · right
      simp only [Bool.and_eq_true] at h
      exact ⟨u, v, rfl, h.1, h.2⟩
    · exact ih w hw
  | case4 u v rest h ih =>
    rw [codePoints_cons_cons, if_neg h]
    intro w hw
    rcases List.mem_cons.mp hw with rfl | hw
    · exact Or.inl ⟨u, rfl⟩
    · exact ih w hw




/-- No value of the string iterator is the name of a member inherited from
`Object.prototype`, so the read `dict[ch]` of `walk` is a read of an own
property. -/
theorem codePoints_not_inherited (s : JSString) :
    ∀ u ∈ codePoints s, u ∉ objectPrototypeKeys := by
  intro u hu hmem
  have hlen : ∀ k ∈ objectPrototypeKeys, 7 ≤ k.length := by decide
  have h7 := hlen u hmem
  rcases codePoints_shape s u hu with ⟨a, rfl⟩ | ⟨a, b, rfl, _, _⟩ <;> simp at h7

theorem endsWithLeadingSurrogate_cons (x : CodeUnit) (s : JSString)
    (h : endsWithLeadingSurrogate s = true) : endsWithLeadingSurrogate (x :: s) = true := by
  cases s with
  | nil => simp [endsWithLeadingSurrogate] at h
  | cons y s => simpa [endsWithLeadingSurrogate, List.getLast?_cons_cons] using h

/-- The iterator reads a concatenation piece by piece unless the cut falls
inside a surrogate pair. -/
theorem codePoints_append (a b : JSString)
    (h : ¬ (endsWithLeadingSurrogate a = true ∧ startsWithTrailingSurrogate b = true)) :
    codePoints (a ++ b) = codePoints a ++ codePoints b := by
  induction a using codePoints.induct with
  | case1 => simp [codePoints]
  | case2 u =>
    cases b with
    | nil => simp [codePoints]
    | cons v rest =>
      have hc : ¬ ((isLeadingSurrogate u && isTrailingSurrogate v) = true) := by
        simpa [endsWithLeadingSurrogate, startsWithTrailingSurrogate] using h
      show codePoints (u :: v :: rest) = codePoints [u] ++ codePoints (v :: rest)
      rw [codePoints_cons_cons, if_neg hc]
      rfl
  | case3 u v rest hp ih =>
    have h' : ¬ (endsWithLeadingSurrogate rest = true ∧
        startsWithTrailingSurrogate b = true) := fun hh =>
      h ⟨endsWithLeadingSurrogate_cons _ _ (endsWithLeadingSurrogate_cons _ _ hh.1), hh.2⟩
    show codePoints (u :: v :: (rest ++ b)) = codePoints (u :: v :: rest) ++ codePoints b
    rw [codePoints_cons_cons, codePoints_cons_cons, if_pos hp, if_pos hp, ih h']
    rfl
  | case4 u v rest hp ih =>
    have h' : ¬ (endsWithLeadingSurrogate (v :: rest) = true ∧
        startsWithTrailingSurrogate b = true) := fun hh =>
      h ⟨endsWithLeadingSurrogate_cons _ _ hh.1, hh.2⟩
    show codePoints (u :: v :: (rest ++ b)) = codePoints (u :: v :: rest) ++ codePoints b
    rw [codePoints_cons_cons, codePoints_cons_cons, if_neg hp, if_neg hp]
    have := ih h'
    simp only [List.cons_append] at this
    rw [this]
    rfl

theorem startsWithTrailingSurrogate_append (q rest : JSString) (hq : q ≠ []) :
    startsWithTrailingSurrogate (q ++ rest) = startsWithTrailingSurrogate q := by
  cases q with
  | nil => exact absurd rfl hq
  | cons x q => rfl

theorem codePoints_flatten (ps : List JSString) (hne : ∀ p ∈ ps, p ≠ [])
    (hc : List.Chain' Seam ps) :
    codePoints ps.flatten = ps.flatMap codePoints := by
  induction ps with
  | nil => rfl
  | cons p ps ih =>
    have hne' : ∀ q ∈ ps, q ≠ [] := fun q hq => hne q (List.mem_cons_of_mem _ hq)
    rw [List.flatten_cons, List.flatMap_cons, codePoints_append, ih hne' hc.tail]
    cases ps with
    | nil => simp [startsWithTrailingSurrogate]
    | cons q ps =>
      rw [List.flatten_cons, startsWithTrailingSurrogate_append q _ (hne q (by simp))]
      exact (List.chain'_cons.mp hc).1

theorem leading_not_trailing (u : CodeUnit) (h : isTrailingSurrogate u = true) :
    isLeadingSurrogate u = false := by
  simp only [isTrailingSurrogate, isLeadingSurrogate, Bool.and_eq_true, decide_eq_true_eq] at h ⊢
  simp only [Bool.and_eq_false_iff, decide_eq_false_iff_not]
  omega

theorem startsWith_head_codePoints (v : CodeUnit) (rest : JSString) :
    ∃ w ws, codePoints (v :: rest) = w :: ws ∧
      startsWithTrailingSurrogate w = isTrailingSurrogate v := by
  cases rest with
  | nil => exact ⟨[v], [], rfl, rfl⟩
  | cons x rest =>
    rw [codePoints_cons_cons]
    split
    · exact ⟨_, _, rfl, rfl⟩
    · exact ⟨_, _, rfl, rfl⟩

/-- Consecutive values of the iterator never end and start with the halves of
a surrogate pair. -/
theorem chain_codePoints (s : JSString) : List.Chain' Seam (codePoints s) := by
  induction s using codePoints.induct with
  | case1 => simp [codePoints]
  | case2 u => simp [codePoints]
  | case3 u v rest hp ih =>
    rw [codePoints_cons_cons, if_pos hp]
    simp only [Bool.and_eq_true] at hp
    refine List.Chain'.cons' ih ?_
    intro q _ hq
    have : endsWithLeadingSurrogate [u, v] = false := by
      simp [endsWithLeadingSurrogate, leading_not_trailing v hp.2]
    simp [this] at hq
  | case4 u v rest hp ih =>
    rw [codePoints_cons_cons, if_neg hp]
    refine List.Chain'.cons' ih ?_
    intro q hq hs
    obtain ⟨w, ws, hw, hst⟩ := startsWith_head_codePoints v rest
    rw [hw] at hq
    simp only [List.head?_cons, Option.mem_def, Option.some.injEq] at hq
    subst hq
    apply hp
    rw [hst] at hs
    simpa [endsWithLeadingSurrogate] using hs

theorem JSObject.mem_of_get (o : JSObject) (k v : JSString) (h : o.get k = some v) :
    (k, v) ∈ o := by
  induction o with
  | nil => simp [JSObject.get] at h
  | cons p o ih =>
    obtain ⟨a, b⟩ := p
    by_cases e : a = k
    · subst e
      simp only [JSObject.get, if_true, Option.some.injEq] at h
      subst h
      exact List.mem_cons_self _ _
    · simp only [JSObject.get, e, if_false] at h
      exact List.mem_cons_of_mem _ (ih h)

/-- The piece written for a character is the character itself or a non-empty
value of the dictionary. -/
theorem orElse_cases (dict : JSObject) (u : JSString) :
    orElse (dict.get u) u = u ∨
      (orElse (dict.get u) u ≠ [] ∧ (u, orElse (dict.get u) u) ∈ dict) := by
  cases h : dict.get u with
  | none => exact Or.inl rfl
  | some v =>
    by_cases hv : v = []
    · left; simp [orElse, hv]
    · right
      have : orElse (some v) u = v := by simp [orElse, hv]
      rw [this]
      exact ⟨hv, JSObject.mem_of_get dict u v h⟩

theorem codePoints_of_mem (s u : JSString) (h : u ∈ codePoints s) : codePoints u = [u] := by
  rcases codePoints_shape s u h with ⟨a, rfl⟩ | ⟨a, b, rfl, ha, hb⟩
  · rfl
  · rw [codePoints_cons_cons]
    simp [ha, hb, codePoints]

theorem ne_nil_of_mem_codePoints (s u : JSString) (h : u ∈ codePoints s) : u ≠ [] := by
  rcases codePoints_shape s u h with ⟨a, rfl⟩ | ⟨a, b, rfl, _, _⟩ <;> simp

/-- C6 (amended): for every string `s` and every dictionary in which no
character of any value is a key, and no value begins with a trailing surrogate
or ends with a leading surrogate, substituting twice equals substituting
once. -/
theorem substituteText_idempotent (dict : JSObject) (s : JSString)
    (hk : ValuesAvoidKeys dict) (hs : ValuesKeepSeams dict) :
    substituteText dict (substituteText dict s) = substituteText dict s := by
  have hpiece : ∀ u ∈ codePoints s,
      (codePoints (orElse (dict.get u) u)).flatMap (fun w => orElse (dict.get w) w) =
        orElse (dict.get u) u := by
    intro u hu
    rcases orElse_cases dict u with h | ⟨_, hmem⟩
    · rw [h, codePoints_of_mem s u hu]
      simp [h]
    · have hw : ∀ w ∈ codePoints (orElse (dict.get u) u), orElse (dict.get w) w = w := by
        intro w hw
        have := hk _ hmem w hw
        simp only [JSObject.has] at this
        cases hg : dict.get w with
        | none => rfl
        | some x => simp [hg] at this
      calc (codePoints (orElse (dict.get u) u)).flatMap (fun w => orElse (dict.get w) w)
          = (codePoints (orElse (dict.get u) u)).flatMap (fun w => w) := by
            apply congrArg List.flatten
            exact List.map_congr_left hw
        _ = (codePoints (orElse (dict.get u) u)).flatten := by
            simp [List.flatMap]
        _ = orElse (dict.get u) u := flatten_codePoints _
  have hseam : ∀ a b : JSString, Seam a b →
      Seam (orElse (dict.get a) a) (orElse (dict.get b) b) := by
    intro a b hab hh
    rcases orElse_cases dict a with ha | ⟨_, ha⟩
    · rcases orElse_cases dict b with hb | ⟨_, hb⟩
      · rw [ha, hb] at hh
        exact hab hh
      · have := (hs _ hb).1
        simp [this] at hh
    · have := (hs _ ha).2
      simp [this] at hh
  have hne : ∀ p ∈ (codePoints s).map (fun u => orElse (dict.get u) u), p ≠ [] := by
    intro p hp
    obtain ⟨u, hu, rfl⟩ := List.mem_map.mp hp
    rcases orElse_cases dict u with h | ⟨h, _⟩
    · rw [h]; exact ne_nil_of_mem_codePoints s u hu
    · exact h
  have hchain : List.Chain' Seam ((codePoints s).map (fun u => orElse (dict.get u) u)) := by
    rw [List.chain'_map]
    exact (chain_codePoints s).imp (fun {a b} h => hseam a b h)
  have hcp : codePoints (substituteText dict s) =
      (codePoints s).flatMap (fun u => codePoints (orElse (dict.get u) u)) := by
    rw [substituteText_eq_flatMap]
    show codePoints ((codePoints s).map _).flatten = _
    rw [codePoints_flatten _ hne hchain]
    simp [List.flatMap, List.map_map, Function.comp_def]
  rw [substituteText_eq_flatMap dict (substituteText dict s), hcp,
    substituteText_eq_flatMap dict s]
  rw [List.flatMap_assoc]
  apply congrArg List.flatten
  exact List.map_congr_left hpiece

theorem orElse_eq_self_iff (dict : JSObject) (u : JSString) :
    orElse (dict.get u) u = u ↔ KeepsChar dict u := by
  unfold KeepsChar
  cases h : dict.get u with
  | none => simp [orElse]
  | some v =>
    by_cases hv : v = []
    · simp [orElse, hv]
    · simp [orElse, hv]

/-- Pieces that are each the character itself or a non-empty string other than
a lone surrogate, written after a carry `r`, spell the original text only when
the carry is empty and every piece is its character. -/
theorem pieces_align (piece : JSString → JSString)
    (hpiece : ∀ u, piece u = u ∨ (piece u ≠ [] ∧ isLoneSurrogate (piece u) = false))
    (us : List JSString)
    (hshape : ∀ u ∈ us, (∃ a, u = [a]) ∨
      ∃ a b, u = [a, b] ∧ isLeadingSurrogate a = true ∧ isTrailingSurrogate b = true)
    (r : JSString) (h : r ++ us.flatMap piece = us.flatten) :
    r = [] ∧ ∀ u ∈ us, piece u = u := by
  induction us generalizing r with
  | nil => simpa using h
  | cons u us ih =>
    have hsh : ∀ w ∈ us, (∃ a, w = [a]) ∨
        ∃ a b, w = [a, b] ∧ isLeadingSurrogate a = true ∧ isTrailingSurrogate b = true :=
      fun w hw => hshape w (List.mem_cons_of_mem _ hw)
    rw [List.flatMap_cons, List.flatten_cons] at h
    have hu := hshape u (List.mem_cons_self _ _)
    have hpne : piece u ≠ [] := by
      rcases hpiece u with e | ⟨e, _⟩
      · rw [e]
        rcases hu with ⟨a, rfl⟩ | ⟨a, b, rfl, _, _⟩ <;> simp
      · exact e
    have hp := hpiece u
    -- the piece, with its first unit
    obtain ⟨y, p', hpe⟩ := List.exists_cons_of_ne_nil hpne
    rw [hpe] at h hp
    cases r with
    | nil =>
      rcases hu with ⟨a, rfl⟩ | ⟨a, b, rfl, ha, hb⟩
      · -- one unit
        simp only [List.nil_append, List.cons_append, List.cons.injEq] at h
        obtain ⟨rfl, h⟩ := h
        have := ih hsh p' (by simpa using h)
        obtain ⟨hp'nil, hrest⟩ := this
        subst hp'nil
        refine ⟨rfl, ?_⟩
        intro w hw
        rcases List.mem_cons.mp hw with rfl | hw
        · exact hpe
        · exact hrest w hw
      · -- a surrogate pair
        simp only [List.nil_append, List.cons_append, List.cons.injEq] at h
        obtain ⟨rfl, h⟩ := h
        cases p' with
        | nil =>
          exfalso
          rcases hp with e | ⟨_, e⟩
          · simp at e
          · simp [isLoneSurrogate, ha] at e
        | cons z p'' =>
          simp only [List.cons_append, List.cons.injEq] at h
          obtain ⟨rfl, h⟩ := h
          obtain ⟨hp'nil, hrest⟩ := ih hsh p'' (by simpa using h)
          subst hp'nil
          refine ⟨rfl, ?_⟩
          intro w hw
          rcases List.mem_cons.mp hw with rfl | hw
          · exact hpe
          · exact hrest w hw
    | cons x r' =>
      exfalso
      rcases hu with ⟨a, rfl⟩ | ⟨a, b, rfl, ha, hb⟩
      · simp only [List.cons_append, List.cons.injEq] at h
        obtain ⟨rfl, h⟩ := h
        have := (ih hsh (r' ++ y :: p') (by simpa using h)).1
        simp at this
      · simp only [List.cons_append, List.cons.injEq] at h
        obtain ⟨rfl, h⟩ := h
        cases r' with
        | nil =>
          simp only [List.nil_append, List.cons_append, List.cons.injEq] at h
          obtain ⟨rfl, h⟩ := h
          have hp'nil := (ih hsh p' (by simpa using h)).1
          subst hp'nil
          rcases hp with e | ⟨_, e⟩
          · simp at e
          · simp [isLoneSurrogate, hb] at e
        | cons z r'' =>
          simp only [List.cons_append, List.cons.injEq] at h
          obtain ⟨rfl, h⟩ := h
          have := (ih hsh (r'' ++ y :: p') (by simpa using h)).1
          simp at this

/-- C6 as stated fails: in `{"a": "\uD83D", "b": "\uDE00", "😀": "Z"}` no
character of a value is a key, yet `ab` becomes `😀`, the two values joining
into one surrogate pair, and a second substitution turns it into `Z`. -/
theorem substituteText_twice_counterexample :
    ValuesAvoidKeys surrogateHalvesDict ∧
      substituteText surrogateHalvesDict (substituteText surrogateHalvesDict (utf16 "ab")) ≠
        substituteText surrogateHalvesDict (utf16 "ab") := by
  refine ⟨?_, by decide⟩
  unfold ValuesAvoidKeys
  decide

/-- The amended C6 with `{"亜": "a"}` on the text `亜x亜`. -/
theorem substituteText_idempotent_witness :
    substituteText [(utf16 "亜", utf16 "a")]
        (substituteText [(utf16 "亜", utf16 "a")] (utf16 "亜x亜")) =
      substituteText [(utf16 "亜", utf16 "a")] (utf16 "亜x亜") :=
  substituteText_idempotent [(utf16 "亜", utf16 "a")] (utf16 "亜x亜")
    (by unfold ValuesAvoidKeys; decide) (by unfold ValuesKeepSeams; decide)

/-- C5 as stated fails: with `{"a": "a"}` the text `a` is written back
unchanged although its character is a key. -/
theorem substituteText_identity_counterexample :
    ¬ (substituteText identityDict (utf16 "a") = utf16 "a" ↔
        ∀ u ∈ codePoints (utf16 "a"), identityDict.has u = false) := by
  decide

/-- C5 (amended): the substituted text equals `orig` when no character of
`orig` is a key of `dict`, and more generally when every character of `orig`
that is a key has the empty string or itself as value; and for a dictionary
none of whose values is a lone surrogate code unit, it equals `orig` if and
only if every character of `orig` that is a key has the empty string or itself
as value. -/
theorem substituteText_eq_orig_iff (dict : JSObject) (orig : JSString) :
    ((∀ u ∈ codePoints orig, dict.has u = false) → substituteText dict orig = orig) ∧
    ((∀ u ∈ codePoints orig, KeepsChar dict u) → substituteText dict orig = orig) ∧
    (NoLoneSurrogateValue dict →
      (substituteText dict orig = orig ↔ ∀ u ∈ codePoints orig, KeepsChar dict u)) := by
  have hif : (∀ u ∈ codePoints orig, KeepsChar dict u) → substituteText dict orig = orig := by
    intro h
    rw [substituteText_eq_flatMap]
    have : (codePoints orig).map (fun u => orElse (dict.get u) u) = codePoints orig := by
      conv_rhs => rw [← List.map_id (codePoints orig)]
      exact List.map_congr_left fun u hu => (orElse_eq_self_iff dict u).mpr (h u hu)
    show ((codePoints orig).map _).flatten = orig
    rw [this, flatten_codePoints]
  refine ⟨?_, hif, fun hl => ⟨?_, hif⟩⟩
  · intro h
    apply hif
    intro u hu
    have := h u hu
    simp only [JSObject.has] at this
    left
    cases hg : dict.get u with
    | none => rfl
    | some x => simp [hg] at this
  · intro h
    rw [substituteText_eq_flatMap] at h
    have hpiece : ∀ u, orElse (dict.get u) u = u ∨
        (orElse (dict.get u) u ≠ [] ∧ isLoneSurrogate (orElse (dict.get u) u) = false) := by
      intro u
      rcases orElse_cases dict u with e | ⟨e, hmem⟩
      · exact Or.inl e
      · exact Or.inr ⟨e, hl _ hmem⟩
    have := (pieces_align _ hpiece (codePoints orig) (codePoints_shape orig) []
      (by rw [List.nil_append, h, flatten_codePoints])).2
    intro u hu
    exact (orElse_eq_self_iff dict u).mp (this u hu)

/-- The amended C5 with `{"a": ""}` on the text `ab`. -/
theorem substituteText_eq_orig_iff_witness :
    substituteText emptyValueDict (utf16 "ab") = utf16 "ab" :=
  ((substituteText_eq_orig_iff emptyValueDict (utf16 "ab")).2.2
    (by unfold NoLoneSurrogateValue; decide)).mpr (by unfold KeepsChar; decide)

/-- Without the restriction on lone surrogates the "only if" of the amended C5
fails: `{"😀": "\uD83D", "a": "\uDE00a"}` writes `😀a` back unchanged while
replacing both of its characters. -/
theorem substituteText_surrogateShift :
    substituteText surrogateShiftDict (utf16 "😀a") = utf16 "😀a" ∧
      ¬ (∀ u ∈ codePoints (utf16 "😀a"), KeepsChar surrogateShiftDict u) := by
  unfold KeepsChar
  decide

/-! ## The walk over the page -/

theorem walkAttribute_apply (dict : JSObject) (attributes : JSString → Option JSString)
    (attr name : JSString) :
    walkAttribute dict attributes attr name =
      if name = attr then (attributes name).map (substituteText dict) else attributes name := by
  unfold walkAttribute
  cases h : attributes attr with
  | none =>
    by_cases e : name = attr
    · subst e; simp [h]
    · simp [e]
  | some val =>
    by_cases hout : substituteText dict val = val
    · by_cases e : name = attr
      · subst e; simp [h, hout]
      · simp [hout, e]
    · by_cases e : name = attr
      · subst e; simp [h, hout]
      · simp [hout, e, Function.update_noteq]

theorem foldl_walkAttribute (dict : JSObject) (names : List JSString) (hn : names.Nodup)
    (attributes : JSString → Option JSString) (name : JSString) :
    names.foldl (walkAttribute dict) attributes name =
      if name ∈ names then (attributes name).map (substituteText dict)
      else attributes name := by
  induction names generalizing attributes with
  | nil => simp
  | cons a names ih =>
    rw [List.nodup_cons] at hn
    rw [List.foldl_cons, ih hn.2, walkAttribute_apply]
    by_cases e : name = a
    · subst e; simp [hn.1]
    · simp [e]

theorem walkAttributes_eq (dict : JSObject) (attributes : JSString → Option JSString) :
    substitutedAttributes.foldl (walkAttribute dict) attributes =
      fun name =>
        if name ∈ substitutedAttributes then (attributes name).map (substituteText dict)
        else attributes name := by
  funext name
  exact foldl_walkAttribute dict substitutedAttributes (by decide) attributes name

mutual
theorem walk_eq_substituteTree (dict : JSObject) :
    ∀ node : Node, walk dict node = substituteTree dict node
  | .text orig => by
    by_cases h : substituteText dict orig = orig <;> simp [walk, substituteTree, h]
  | .element tagName attributes childNodes => by
    by_cases h : isExcludedTag tagName = true
    · simp [walk, substituteTree, h]
    · simp [walk, substituteTree, h, walkAttributes_eq,
        walkChildNodes_eq_substituteTrees dict childNodes]
  | .other nodeType => by simp [walk, substituteTree]
theorem walkChildNodes_eq_substituteTrees (dict : JSObject) :
    ∀ nodes : List Node, walkChildNodes dict nodes = substituteTrees dict nodes
  | [] => by simp [walkChildNodes, substituteTrees]
  | child :: rest => by
    simp [walkChildNodes, substituteTrees, walk_eq_substituteTree dict child,
      walkChildNodes_eq_substituteTrees dict rest]
end

theorem walkChildNodes_eq_map (dict : JSObject) (nodes : List Node) :
    walkChildNodes dict nodes = nodes.map (walk dict) := by
  induction nodes with
  | nil => simp [walkChildNodes]
  | cons child rest ih => simp [walkChildNodes, ih]

theorem walk_excluded (dict : JSObject) (tagName : JSString)
    (attributes : JSString → Option JSString) (childNodes : List Node)
    (h : isExcludedTag tagName = true) :
    walk dict (.element tagName attributes childNodes) =
      .element tagName attributes childNodes := by
  simp [walk, h]

theorem subtreeAt_walk_of_isExcludedTag (dict : JSObject) (root : Node) (path : List Nat)
    (tagName : JSString) (attributes : JSString → Option JSString) (childNodes : List Node)
    (hsub : subtreeAt root path = some (.element tagName attributes childNodes))
    (hex : isExcludedTag tagName = true) :
    subtreeAt (walk dict root) path = some (.element tagName attributes childNodes) := by
  induction path generalizing root with
  | nil =>
    simp only [subtreeAt, Option.some.injEq] at hsub
    subst hsub
    rw [walk_excluded dict _ _ _ hex]
    rfl
  | cons i path ih =>
    cases root with
    | text t => simp [subtreeAt] at hsub
    | other t => simp [subtreeAt] at hsub
    | element tag attrs children =>
      by_cases hx : isExcludedTag tag = true
      · rw [walk_excluded dict _ _ _ hx]
        exact hsub
      · simp only [subtreeAt] at hsub
        cases hc : children[i]? with
        | none => simp [hc] at hsub
        | some child =>
          simp only [hc] at hsub
          have hw : walk dict (.element tag attrs children) =
              .element tag (substitutedAttributes.foldl (walkAttribute dict) attrs)
                (walkChildNodes dict children) := by
            simp [walk, hx]
          rw [hw]
          simp only [subtreeAt, walkChildNodes_eq_map, List.getElem?_map, hc, Option.map_some']
          exact ih child hsub

theorem isExcludedTag_iff (tagName : JSString) :
    isExcludedTag tagName = true ↔
      tagName = utf16 "SCRIPT" ∨ tagName = utf16 "STYLE" ∨ tagName = utf16 "NOSCRIPT" := by
  simp [isExcludedTag, List.contains_iff_exists_mem_beq]

/-- C4: a subtree of the page rooted at an element whose tag is exactly
`SCRIPT`, `STYLE` or `NOSCRIPT` is, after `walk(root)`, the same subtree at the
same place: the attributes of the element and its child nodes, with all their
texts, attributes and descendants, are unchanged. -/
theorem subtreeAt_walk_excluded (dict : JSObject) (root : Node) (path : List Nat)
    (tagName : JSString) (attributes : JSString → Option JSString) (childNodes : List Node)
    (hsub : subtreeAt root path = some (.element tagName attributes childNodes))
    (htag : tagName = utf16 "SCRIPT" ∨ tagName = utf16 "STYLE" ∨
      tagName = utf16 "NOSCRIPT") :
    subtreeAt (walk dict root) path = some (.element tagName attributes childNodes) :=
  subtreeAt_walk_of_isExcludedTag dict root path tagName attributes childNodes hsub
    ((isExcludedTag_iff tagName).mpr htag)

/-- C4 on the script element of `sampleBody`, whose title and text hold a key
of the dictionary. -/
theorem subtreeAt_walk_excluded_witness :
    subtreeAt (walk [(utf16 "亜", utf16 "a")] sampleBody) [1] =
      some (.element (utf16 "SCRIPT")
        (fun name => if name = utf16 "title" then some (utf16 "亜") else none)
        [.text (utf16 "亜")]) :=
  subtreeAt_walk_excluded [(utf16 "亜", utf16 "a")] sampleBody [1] (utf16 "SCRIPT")
    (fun name => if name = utf16 "title" then some (utf16 "亜") else none)
    [.text (utf16 "亜")] rfl (Or.inl rfl)

/-- C3: `walk(root)` leaves the tree `substituteTree` describes: the same
shape, tags and other nodes; outside every `SCRIPT`, `STYLE` and `NOSCRIPT`
element each text node holds the substitution of its original content and
each `alt`, `title` or `placeholder` attribute that is present holds the
substitution of its original value, every other attribute is as it was, and
no attribute is added or removed. -/
theorem walk_spec (dict : JSObject) (root : Node) :
    walk dict root = substituteTree dict root :=
  walk_eq_substituteTree dict root

/-- On `sampleBody` the walk rewrites the text and the title of the paragraph. -/
theorem walk_sampleBody :
    subtreeAt (walk [(utf16 "亜", utf16 "a")] sampleBody) [0] = some (.text (utf16 "a")) ∧
      ∃ attributes childNodes,
        walk [(utf16 "亜", utf16 "a")] sampleBody =
          .element (utf16 "P") attributes childNodes ∧
        attributes (utf16 "title") = some (utf16 "a") ∧
        attributes (utf16 "id") = none := by
  refine ⟨?_, _, _, walk_eq_substituteTree _ _, ?_, ?_⟩
  · rfl
  · decide
  · decide

end Okechika
